import Mathlib

/-!
Verification of the subtitle-segmentation core of the Subtitleler repository.

The embedded code is `src/TranscribirV2.py`:
* `convert_seconds_to_srt_time` (also present, identically, in `src/Transcribir.py`)
  formats a number of seconds as an SRT timestamp `HH:MM:SS,mmm`.
* `create_srt_with_natural_breaks` aggregates the per-segment word lists of a
  recognizer result and greedily partitions the words into subtitle chunks.

Modelling conventions:
* Python floats are modelled as exact rationals (`ℚ`); `max_chars` (a Python
  `int`) is modelled as `Int`.
* Python's `str.strip()` is modelled by `pyStrip`, dropping whitespace
  characters from both ends of the underlying character list.
* Python's `int(...)` truncation toward zero is `pytrunc`, `//` is `pyFloorDiv`
  and `%` is `pyMod` (the float variants, which Python defines through floor).
* The three loop variables `chunk_start_time`, `chunk_end_time`, `chunk_text`
  of the Python loop are always assigned and cleared together (lines 91-96,
  111-113, 122-124, 134-136, 153-155 of `TranscribirV2.py`), so the open chunk
  is modelled as a single `Option Chunk` field; `none` corresponds to
  `chunk_start_time is None` (with `chunk_text = ""`).
* The early `return` after the warning print for a missing word list
  (lines 68-71) is modelled as `SegResult.error SegError.noWordData`; the
  normal path that writes an SRT file is `SegResult.ok`.  The spec's error
  taxonomy also
  names an `InvalidConfiguration` condition, hence the second constructor of
  `SegError`; the Python code never signals it.
-/

namespace Subtitleler

/-- Characters stripped from both ends by Python's `str.strip()`. -/
def isSpaceChar (c : Char) : Bool := c.isWhitespace

/-- Strip whitespace from the front of a character list. -/
def lstripChars (l : List Char) : List Char := l.dropWhile isSpaceChar

/-- Strip whitespace from the back of a character list. -/
def rstripChars (l : List Char) : List Char := (l.reverse.dropWhile isSpaceChar).reverse

/-- Strip whitespace from both ends of a character list. -/
def stripChars (l : List Char) : List Char := rstripChars (lstripChars l)

/-- Embedding of Python's `str.strip()` (used as `word_text.strip()`,
`chunk_text.strip()`, `(chunk_text + " " + trimmed_word).strip()`). -/
def pyStrip (s : String) : String := String.mk (stripChars s.data)

/-- One recognized word: the dictionary `{"word": ..., "start": ..., "end": ...}`
consumed at lines 85-87 of `TranscribirV2.py`. -/
structure Word where
  word : String
  start : ℚ
  «end» : ℚ
  deriving DecidableEq, Repr

/-- One subtitle record: the dictionary `{"start": ..., "end": ..., "text": ...}`
appended to `subtitles`. -/
structure Chunk where
  start : ℚ
  «end» : ℚ
  text : String
  deriving DecidableEq, Repr

/-- The mutable state of the word loop of `create_srt_with_natural_breaks`:
the open chunk (bundling `chunk_start_time`, `chunk_end_time`, `chunk_text`),
`prev_word_end`, and the `subtitles` accumulated so far. -/
structure SegState where
  chunk : Option Chunk
  prev_word_end : ℚ
  subtitles : List Chunk
  deriving DecidableEq, Repr

/-- One recognizer segment; `words = none` models a segment dictionary without
a `"words"` key (line 65 of `TranscribirV2.py`). -/
structure Segment where
  words : Option (List Word)
  deriving DecidableEq, Repr

/-- The error taxonomy named by the specification (section 7). -/
inductive SegError where
  | noWordData
  | invalidConfiguration
  deriving DecidableEq, Repr

/-- Outcome of a call to the segmenter: either a signalled error condition or
the produced subtitle sequence. -/
inductive SegResult where
  | error (e : SegError)
  | ok (subs : List Chunk)
  deriving DecidableEq, Repr

/-- Python test `last_char in punctuation_breaks` with
`last_char = trimmed_word[-1] if trimmed_word else ""` (line 144):
an empty trimmed word has no last character and never matches. -/
def endsInPunct (punctuation_breaks : List Char) (t : String) : Bool :=
  match t.data.getLast? with
  | some c => punctuation_breaks.contains c
  | none => false

/-- One iteration of the word loop (lines 84-157 of `TranscribirV2.py`).
`isLast` tells whether `i < len(words_list) - 1` fails, i.e. whether `w` is the
last word of the whole input. -/
def stepWord (max_chars : Int) (max_duration silence_threshold : ℚ)
    (punctuation_breaks : List Char) :
    SegState → Word → Bool → SegState
  | ⟨none, _, subtitles⟩, w, _ =>
      ⟨some ⟨w.start, w.«end», pyStrip w.word⟩, w.«end», subtitles⟩
  | ⟨some c, prev_word_end, subtitles⟩, w, isLast =>
      let trimmed_word := pyStrip w.word
      let proposed_text := pyStrip (c.text ++ " " ++ trimmed_word)
      let proposed_duration := w.«end» - c.start
      if max_chars < (proposed_text.length : Int) then
        ⟨some ⟨w.start, w.«end», trimmed_word⟩, w.«end»,
          subtitles ++ [⟨c.start, c.«end», pyStrip c.text⟩]⟩
      else if max_duration < proposed_duration then
        ⟨some ⟨w.start, w.«end», trimmed_word⟩, w.«end»,
          subtitles ++ [⟨c.start, c.«end», pyStrip c.text⟩]⟩
      else if silence_threshold ≤ w.start - prev_word_end ∧ 0 < c.text.length then
        ⟨some ⟨w.start, w.«end», trimmed_word⟩, w.«end»,
          subtitles ++ [⟨c.start, c.«end», pyStrip c.text⟩]⟩
      else if endsInPunct punctuation_breaks trimmed_word && !isLast then
        ⟨none, w.«end», subtitles ++ [⟨c.start, w.«end», pyStrip proposed_text⟩]⟩
      else
        ⟨some ⟨c.start, w.«end», proposed_text⟩, w.«end», subtitles⟩

/-- The word loop itself; each word is processed knowing whether it is the
last one of the whole input. -/
def segLoop (max_chars : Int) (max_duration silence_threshold : ℚ)
    (punctuation_breaks : List Char) :
    SegState → List Word → SegState
  | st, [] => st
  | st, w :: ws =>
      segLoop max_chars max_duration silence_threshold punctuation_breaks
        (stepWord max_chars max_duration silence_threshold punctuation_breaks
          st w ws.isEmpty) ws

/-- The word loop restricted to words that are known not to be last (used to
split off the final word of a run). -/
def segLoopMid (max_chars : Int) (max_duration silence_threshold : ℚ)
    (punctuation_breaks : List Char) :
    SegState → List Word → SegState
  | st, [] => st
  | st, w :: ws =>
      segLoopMid max_chars max_duration silence_threshold punctuation_breaks
        (stepWord max_chars max_duration silence_threshold punctuation_breaks
          st w false) ws

/-- Post-loop flush (lines 159-165): the still-open chunk is emitted when its
stripped text is non-empty.  When the open chunk is `none` the Python
`chunk_text` is `""`, so nothing is emitted. -/
def flushState : SegState → List Chunk
  | ⟨none, _, subtitles⟩ => subtitles
  | ⟨some c, _, subtitles⟩ =>
      if pyStrip c.text ≠ "" then subtitles ++ [⟨c.start, c.«end», pyStrip c.text⟩]
      else subtitles

/-- The whole segmentation pass over an already aggregated word list. -/
def segmentWords (max_chars : Int) (max_duration silence_threshold : ℚ)
    (punctuation_breaks : List Char) (words_list : List Word) : List Chunk :=
  flushState
    (segLoop max_chars max_duration silence_threshold punctuation_breaks
      ⟨none, 0, []⟩ words_list)

/-- Aggregation of the per-segment word lists (lines 63-66). -/
def aggregateWords (result : List Segment) : List Word :=
  result.foldl (fun acc seg => acc ++ seg.words.getD []) []

/-- Embedding of `create_srt_with_natural_breaks` (lines 32-165): aggregate
the words; on an empty aggregate warn and return early (modelled as
`SegError.noWordData`); otherwise run the greedy chunking loop and the final
flush.  The subsequent SRT serialization is outside the claims. -/
def create_srt_with_natural_breaks (result : List Segment) (max_chars : Int)
    (max_duration silence_threshold : ℚ) (punctuation_breaks : List Char) :
    SegResult :=
  let words_list := aggregateWords result
  if words_list.isEmpty then SegResult.error SegError.noWordData
  else
    SegResult.ok
      (segmentWords max_chars max_duration silence_threshold punctuation_breaks
        words_list)

/-- Python `int(q)`: truncation toward zero. -/
def pytrunc (q : ℚ) : Int := if q < 0 then -⌊-q⌋ else ⌊q⌋

/-- Python float floor division `a // b`. -/
def pyFloorDiv (a b : ℚ) : ℚ := (⌊a / b⌋ : ℚ)

/-- Python float modulo `a % b` (defined through floor division). -/
def pyMod (a b : ℚ) : ℚ := a - b * pyFloorDiv a b

/-- Zero-padding of a rendered number to a minimal width, as done by the
format specifiers `{:02}` and `{:03}`. -/
def zfill (width : Nat) (s : String) : String :=
  if s.length < width then String.mk (List.replicate (width - s.length) '0') ++ s
  else s

/-- Python `f"{n:0w}"` for an integer `n`. -/
def pyFormat0 (width : Nat) (n : Int) : String := zfill width (toString n)

/-- Embedding of `convert_seconds_to_srt_time` (lines 22-30 of
`TranscribirV2.py`, lines 27-40 of `Transcribir.py`). -/
def convert_seconds_to_srt_time (seconds : ℚ) : String :=
  let hours : Int := pytrunc (pyFloorDiv seconds 3600)
  let minutes : Int := pytrunc (pyFloorDiv (pyMod seconds 3600) 60)
  let secs : Int := pytrunc (pyMod seconds 60)
  let millis : Int := pytrunc ((seconds - (pytrunc seconds : ℚ)) * 1000)
  pyFormat0 2 hours ++ ":" ++ pyFormat0 2 minutes ++ ":" ++ pyFormat0 2 secs
    ++ "," ++ pyFormat0 3 millis

/-- Space-join of a list of strings, the reading of "joined by single spaces"
used by the completeness claim. -/
def joinSpace : List String → String
  | [] => ""
  | [s] => s
  | s :: s₂ :: rest => s ++ " " ++ joinSpace (s₂ :: rest)

/-- The texts currently accounted for by a loop state: the emitted subtitles
followed by the open chunk's text, if one is open. -/
def outTexts (st : SegState) : List String :=
  st.subtitles.map Chunk.text ++
    (match st.chunk with
     | some c => [c.text]
     | none => [])

/-- The start time of the open chunk, as a (possibly empty) list. -/
def chunkStartList : Option Chunk → List ℚ
  | some c => [c.start]
  | none => []

/-- The open chunk, when present, always holds an already-stripped non-empty
text throughout a run on words whose trimmed texts are non-empty. -/
def cleanOpen (st : SegState) : Prop :=
  ∀ c, st.chunk = some c → pyStrip c.text = c.text ∧ c.text ≠ ""

/-! ### Basic facts about strings and stripping -/

theorem string_ext {a b : String} (h : a.data = b.data) : a = b := by
  cases a
  cases b
  exact congrArg String.mk h

theorem data_append (a b : String) : (a ++ b).data = a.data ++ b.data := by
  cases a
  cases b
  rfl

theorem length_eq_data (s : String) : s.length = s.data.length := rfl

theorem ne_empty_iff_data {s : String} : s ≠ "" ↔ s.data ≠ [] := by
  cases s
  simp [String.ext_iff]

theorem str_append_assoc (a b c : String) : a ++ b ++ c = a ++ (b ++ c) :=
  string_ext (by simp [data_append])

theorem str_append_empty (a : String) : a ++ "" = a :=
  string_ext (by simp [data_append])

theorem dropWhile_length_le (p : Char → Bool) (l : List Char) :
    (l.dropWhile p).length ≤ l.length :=
  (List.dropWhile_sublist p).length_le

theorem dropWhile_eq_self_of_length {p : Char → Bool} {l : List Char}
    (h : (l.dropWhile p).length = l.length) : l.dropWhile p = l :=
  (List.dropWhile_suffix p).eq_of_length h

theorem dropWhile_self_head_false {p : Char → Bool} {a : Char} {t : List Char}
    (h : (a :: t).dropWhile p = a :: t) : p a = false := by
  by_cases hp : p a
  · rw [List.dropWhile_cons_of_pos hp] at h
    have hl := dropWhile_length_le p t
    rw [h] at hl
    simp at hl
  · simpa using hp

theorem dropWhile_head_false {p : Char → Bool} :
    ∀ {l : List Char} {a : Char} {t : List Char},
      l.dropWhile p = a :: t → p a = false := by
  intro l
  induction l with
  | nil => intro a t h; simp at h
  | cons b l ih =>
    intro a t h
    by_cases hb : p b
    · rw [List.dropWhile_cons_of_pos hb] at h
      exact ih h
    · rw [List.dropWhile_cons_of_neg hb] at h
      injection h with h1 h2
      subst h1
      simpa using hb

theorem dropWhile_idem (p : Char → Bool) (l : List Char) :
    (l.dropWhile p).dropWhile p = l.dropWhile p := by
  cases h : l.dropWhile p with
  | nil => rfl
  | cons a t =>
    exact List.dropWhile_cons_of_neg (by simp [dropWhile_head_false h])

theorem isSpaceChar_space : isSpaceChar ' ' = true := rfl

theorem rstripChars_prefix (l : List Char) : rstripChars l <+: l := by
  have h : (l.reverse.dropWhile isSpaceChar).reverse <+: l.reverse.reverse :=
    List.reverse_prefix.mpr (List.dropWhile_suffix isSpaceChar)
  simpa [rstripChars] using h

theorem rstripChars_length_le (l : List Char) :
    (rstripChars l).length ≤ l.length := by
  simpa [rstripChars] using dropWhile_length_le isSpaceChar l.reverse

theorem stripChars_length_le (l : List Char) :
    (stripChars l).length ≤ l.length :=
  le_trans (rstripChars_length_le (lstripChars l)) (dropWhile_length_le _ _)

theorem lstrip_eq_self_of_clean {l : List Char} (h : stripChars l = l) :
    lstripChars l = l := by
  have h1 : l.length ≤ (lstripChars l).length := by
    calc l.length = (stripChars l).length := by rw [h]
    _ ≤ (lstripChars l).length := rstripChars_length_le _
  exact dropWhile_eq_self_of_length (le_antisymm (dropWhile_length_le _ _) h1)

theorem rstrip_eq_self_of_clean {l : List Char} (h : stripChars l = l) :
    rstripChars l = l := by
  have hl := lstrip_eq_self_of_clean h
  calc rstripChars l = rstripChars (lstripChars l) := by rw [hl]
  _ = l := h

theorem head_not_space_of_clean {a : Char} {t : List Char}
    (h : stripChars (a :: t) = a :: t) : isSpaceChar a = false :=
  dropWhile_self_head_false (lstrip_eq_self_of_clean h)

theorem revhead_not_space_of_clean {l : List Char} (h : stripChars l = l)
    {a : Char} {t : List Char} (hr : l.reverse = a :: t) :
    isSpaceChar a = false := by
  have h1 := rstrip_eq_self_of_clean h
  have h2 : l.reverse.dropWhile isSpaceChar = l.reverse := by
    have := congrArg List.reverse h1
    simpa [rstripChars] using this
  rw [hr] at h2
  exact dropWhile_self_head_false h2

theorem stripChars_clean_append {a b : List Char}
    (ha : stripChars a = a) (hb : stripChars b = b)
    (hna : a ≠ []) (hnb : b ≠ []) :
    stripChars (a ++ ' ' :: b) = a ++ ' ' :: b := by
  obtain ⟨a0, ta, rfl⟩ := List.exists_cons_of_ne_nil hna
  obtain ⟨b0r, tbr, hbr⟩ : ∃ x xs, b.reverse = x :: xs := by
    cases hbrev : b.reverse with
    | nil => exact absurd (by simpa using congrArg List.reverse hbrev) hnb
    | cons x xs => exact ⟨x, xs, rfl⟩
  have ha0 : isSpaceChar a0 = false := head_not_space_of_clean ha
  have hb0 : isSpaceChar b0r = false := revhead_not_space_of_clean hb hbr
  have hl : lstripChars ((a0 :: ta) ++ ' ' :: b) = (a0 :: ta) ++ ' ' :: b := by
    show List.dropWhile _ (a0 :: (ta ++ ' ' :: b)) = _
    rw [List.dropWhile_cons_of_neg (by simp [ha0])]
    rfl
  have hrev : ((a0 :: ta) ++ ' ' :: b).reverse
      = b0r :: (tbr ++ [' '] ++ (a0 :: ta).reverse) := by
    rw [List.reverse_append, List.reverse_cons, hbr]
    simp
  have key : ((a0 :: ta) ++ ' ' :: b).reverse.dropWhile isSpaceChar
      = ((a0 :: ta) ++ ' ' :: b).reverse := by
    rw [hrev, List.dropWhile_cons_of_neg (by simp [hb0])]
  calc stripChars ((a0 :: ta) ++ ' ' :: b)
      = rstripChars ((a0 :: ta) ++ ' ' :: b) := by
        show rstripChars (lstripChars _) = _
        rw [hl]
  _ = (a0 :: ta) ++ ' ' :: b := by
        show (((a0 :: ta) ++ ' ' :: b).reverse.dropWhile isSpaceChar).reverse = _
        rw [key, List.reverse_reverse]

theorem stripChars_append_space (l : List Char) :
    stripChars (l ++ [' ']) = stripChars l := by
  show rstripChars (List.dropWhile _ _) = rstripChars (List.dropWhile _ _)
  rw [List.dropWhile_append]
  by_cases h : (l.dropWhile isSpaceChar).isEmpty
  · rw [if_pos h]
    have h1 : ([' '] : List Char).dropWhile isSpaceChar = [] := by
      rw [List.dropWhile_cons_of_pos (by simp [isSpaceChar_space])]
      rfl
    have h2 : l.dropWhile isSpaceChar = [] := by
      simpa [List.isEmpty_iff] using h
    rw [h1, h2]
  · rw [if_neg h]
    show rstripChars _ = _
    have : rstripChars (l.dropWhile isSpaceChar ++ [' '])
        = (List.dropWhile isSpaceChar
            (' ' :: (l.dropWhile isSpaceChar).reverse)).reverse := by
      show (List.dropWhile _ _).reverse = _
      rw [List.reverse_append]
      rfl
    rw [this, List.dropWhile_cons_of_pos (by simp [isSpaceChar_space])]
    rfl

theorem lstrip_stripChars (l : List Char) :
    lstripChars (stripChars l) = stripChars l := by
  have hpre : stripChars l <+: lstripChars l := rstripChars_prefix _
  cases hs : stripChars l with
  | nil => rfl
  | cons c t =>
    rw [hs] at hpre
    obtain ⟨s, hsapp⟩ := hpre
    have hl : lstripChars l = c :: (t ++ s) := by
      rw [← hsapp]
      simp
    have hid : (c :: (t ++ s)).dropWhile isSpaceChar = c :: (t ++ s) := by
      rw [← hl]
      exact dropWhile_idem _ _
    have hc := dropWhile_self_head_false hid
    show List.dropWhile _ _ = _
    rw [List.dropWhile_cons_of_neg (by simp [hc])]

theorem rstrip_idem (l : List Char) :
    rstripChars (rstripChars l) = rstripChars l := by
  show (List.dropWhile _ (List.dropWhile _ l.reverse).reverse.reverse).reverse = _
  rw [List.reverse_reverse, dropWhile_idem]
  rfl

theorem stripChars_idem (l : List Char) :
    stripChars (stripChars l) = stripChars l := by
  show rstripChars (lstripChars (stripChars l)) = stripChars l
  rw [lstrip_stripChars]
  show rstripChars (rstripChars (lstripChars l)) = _
  rw [rstrip_idem]
  rfl

/-! ### String-level consequences for `pyStrip` -/

theorem pyStrip_data (s : String) : (pyStrip s).data = stripChars s.data := rfl

theorem pyStrip_idem (s : String) : pyStrip (pyStrip s) = pyStrip s :=
  string_ext (by rw [pyStrip_data, pyStrip_data, stripChars_idem])

theorem pyStrip_length_le (s : String) : (pyStrip s).length ≤ s.length := by
  rw [length_eq_data, length_eq_data]
  exact stripChars_length_le _

theorem data_space : (" " : String).data = [' '] := rfl

theorem data_append_space (a b : String) :
    (a ++ " " ++ b).data = a.data ++ ' ' :: b.data := by
  rw [data_append, data_append, data_space]
  simp

theorem pyStrip_clean_append {a b : String} (ha : pyStrip a = a)
    (hb : pyStrip b = b) (hna : a ≠ "") (hnb : b ≠ "") :
    pyStrip (a ++ " " ++ b) = a ++ " " ++ b := by
  apply string_ext
  rw [pyStrip_data, data_append_space]
  exact stripChars_clean_append (congrArg String.data ha)
    (congrArg String.data hb) (ne_empty_iff_data.mp hna) (ne_empty_iff_data.mp hnb)

theorem pyStrip_append_space (s : String) : pyStrip (s ++ " ") = pyStrip s := by
  apply string_ext
  rw [pyStrip_data, pyStrip_data, data_append, data_space]
  exact stripChars_append_space _

theorem pyStrip_append_space_empty (s : String) :
    pyStrip (s ++ " " ++ "") = pyStrip s := by
  rw [str_append_empty]
  exact pyStrip_append_space s

theorem append_space_ne_empty (a b : String) : a ++ " " ++ b ≠ "" := by
  rw [ne_empty_iff_data, data_append_space]
  simp

/-! ### Branch equations for one loop iteration -/

theorem stepWord_none (mc : Int) (md sil : ℚ) (pb : List Char) (p : ℚ)
    (subs : List Chunk) (w : Word) (b : Bool) :
    stepWord mc md sil pb ⟨none, p, subs⟩ w b =
      ⟨some ⟨w.start, w.«end», pyStrip w.word⟩, w.«end», subs⟩ := rfl

theorem stepWord_some_len {mc : Int} {md sil : ℚ} {pb : List Char} {c : Chunk}
    {p : ℚ} {subs : List Chunk} {w : Word} {b : Bool}
    (h1 : mc < ((pyStrip (c.text ++ " " ++ pyStrip w.word)).length : Int)) :
    stepWord mc md sil pb ⟨some c, p, subs⟩ w b =
      ⟨some ⟨w.start, w.«end», pyStrip w.word⟩, w.«end»,
        subs ++ [⟨c.start, c.«end», pyStrip c.text⟩]⟩ := by
  simp only [stepWord]
  rw [if_pos h1]

theorem stepWord_some_dur {mc : Int} {md sil : ℚ} {pb : List Char} {c : Chunk}
    {p : ℚ} {subs : List Chunk} {w : Word} {b : Bool}
    (h1 : ¬ mc < ((pyStrip (c.text ++ " " ++ pyStrip w.word)).length : Int))
    (h2 : md < w.«end» - c.start) :
    stepWord mc md sil pb ⟨some c, p, subs⟩ w b =
      ⟨some ⟨w.start, w.«end», pyStrip w.word⟩, w.«end»,
        subs ++ [⟨c.start, c.«end», pyStrip c.text⟩]⟩ := by
  simp only [stepWord]
  rw [if_neg h1, if_pos h2]

theorem stepWord_some_sil {mc : Int} {md sil : ℚ} {pb : List Char} {c : Chunk}
    {p : ℚ} {subs : List Chunk} {w : Word} {b : Bool}
    (h1 : ¬ mc < ((pyStrip (c.text ++ " " ++ pyStrip w.word)).length : Int))
    (h2 : ¬ md < w.«end» - c.start)
    (h3 : sil ≤ w.start - p ∧ 0 < c.text.length) :
    stepWord mc md sil pb ⟨some c, p, subs⟩ w b =
      ⟨some ⟨w.start, w.«end», pyStrip w.word⟩, w.«end»,
        subs ++ [⟨c.start, c.«end», pyStrip c.text⟩]⟩ := by
  simp only [stepWord]
  rw [if_neg h1, if_neg h2, if_pos h3]

theorem stepWord_some_cut {mc : Int} {md sil : ℚ} {pb : List Char} {c : Chunk}
    {p : ℚ} {subs : List Chunk} {w : Word} {b : Bool}
    (h1 : ¬ mc < ((pyStrip (c.text ++ " " ++ pyStrip w.word)).length : Int))
    (h2 : ¬ md < w.«end» - c.start)
    (h3 : ¬ (sil ≤ w.start - p ∧ 0 < c.text.length))
    (h4 : (endsInPunct pb (pyStrip w.word) && !b) = true) :
    stepWord mc md sil pb ⟨some c, p, subs⟩ w b =
      ⟨none, w.«end»,
        subs ++ [⟨c.start, w.«end»,
          pyStrip (pyStrip (c.text ++ " " ++ pyStrip w.word))⟩]⟩ := by
  simp only [stepWord]
  rw [if_neg h1, if_neg h2, if_neg h3, if_pos h4]

theorem stepWord_some_absorb {mc : Int} {md sil : ℚ} {pb : List Char} {c : Chunk}
    {p : ℚ} {subs : List Chunk} {w : Word} {b : Bool}
    (h1 : ¬ mc < ((pyStrip (c.text ++ " " ++ pyStrip w.word)).length : Int))
    (h2 : ¬ md < w.«end» - c.start)
    (h3 : ¬ (sil ≤ w.start - p ∧ 0 < c.text.length))
    (h4 : ¬ (endsInPunct pb (pyStrip w.word) && !b) = true) :
    stepWord mc md sil pb ⟨some c, p, subs⟩ w b =
      ⟨some ⟨c.start, w.«end», pyStrip (c.text ++ " " ++ pyStrip w.word)⟩,
        w.«end», subs⟩ := by
  simp only [stepWord]
  rw [if_neg h1, if_neg h2, if_neg h3, if_neg h4]

theorem segLoop_nil (mc : Int) (md sil : ℚ) (pb : List Char) (st : SegState) :
    segLoop mc md sil pb st [] = st := rfl

theorem segLoop_cons (mc : Int) (md sil : ℚ) (pb : List Char) (st : SegState)
    (w : Word) (ws : List Word) :
    segLoop mc md sil pb st (w :: ws) =
      segLoop mc md sil pb (stepWord mc md sil pb st w ws.isEmpty) ws := rfl

theorem segLoopMid_cons (mc : Int) (md sil : ℚ) (pb : List Char) (st : SegState)
    (w : Word) (ws : List Word) :
    segLoopMid mc md sil pb st (w :: ws) =
      segLoopMid mc md sil pb (stepWord mc md sil pb st w false) ws := rfl

theorem segLoop_append_last (mc : Int) (md sil : ℚ) (pb : List Char)
    (w : Word) : ∀ (ws : List Word) (st : SegState),
    segLoop mc md sil pb st (ws ++ [w]) =
      stepWord mc md sil pb (segLoopMid mc md sil pb st ws) w true := by
  intro ws
  induction ws with
  | nil => intro st; rfl
  | cons x ws ih =>
    intro st
    have hne : (ws ++ [w]).isEmpty = false := by cases ws <;> rfl
    calc segLoop mc md sil pb st ((x :: ws) ++ [w])
        = segLoop mc md sil pb
            (stepWord mc md sil pb st x ((ws ++ [w]).isEmpty)) (ws ++ [w]) := rfl
    _ = segLoop mc md sil pb (stepWord mc md sil pb st x false) (ws ++ [w]) := by
        rw [hne]
    _ = stepWord mc md sil pb
          (segLoopMid mc md sil pb (stepWord mc md sil pb st x false) ws)
          w true := ih _
    _ = stepWord mc md sil pb (segLoopMid mc md sil pb st (x :: ws)) w true := rfl

/-! ### Facts about `joinSpace` -/

theorem joinSpace_append_of_ne_nil {xs ys : List String} (hx : xs ≠ [])
    (hy : ys ≠ []) :
    joinSpace (xs ++ ys) = joinSpace xs ++ " " ++ joinSpace ys := by
  induction xs with
  | nil => exact absurd rfl hx
  | cons x xs ih =>
    cases xs with
    | nil =>
      obtain ⟨y, ys', rfl⟩ := List.exists_cons_of_ne_nil hy
      rfl
    | cons x2 xs2 =>
      calc joinSpace ((x :: x2 :: xs2) ++ ys)
          = x ++ " " ++ joinSpace ((x2 :: xs2) ++ ys) := rfl
      _ = x ++ " " ++ (joinSpace (x2 :: xs2) ++ " " ++ joinSpace ys) := by
          rw [ih (by simp)]
      _ = (x ++ " " ++ joinSpace (x2 :: xs2)) ++ " " ++ joinSpace ys := by
          simp [str_append_assoc]
      _ = joinSpace (x :: x2 :: xs2) ++ " " ++ joinSpace ys := rfl

theorem joinSpace_concat {xs : List String} (hx : xs ≠ []) (b : String) :
    joinSpace (xs ++ [b]) = joinSpace xs ++ " " ++ b :=
  joinSpace_append_of_ne_nil hx (by simp)

theorem joinSpace_merge (xs : List String) (a b : String) :
    joinSpace (xs ++ [a ++ " " ++ b]) = joinSpace (xs ++ [a] ++ [b]) := by
  cases xs with
  | nil => rfl
  | cons x xs' =>
    rw [joinSpace_concat (List.cons_ne_nil x xs') (a ++ " " ++ b),
      List.append_assoc]
    rw [joinSpace_append_of_ne_nil (List.cons_ne_nil x xs')
      (by simp : ([a] ++ [b] : List String) ≠ [])]
    rfl

theorem joinSpace_congr_append {xs ys : List String}
    (h : joinSpace xs = joinSpace ys) (hx : xs ≠ []) (hy : ys ≠ [])
    (zs : List String) : joinSpace (xs ++ zs) = joinSpace (ys ++ zs) := by
  cases zs with
  | nil => simpa using h
  | cons z zs' =>
    rw [joinSpace_append_of_ne_nil hx (by simp),
      joinSpace_append_of_ne_nil hy (by simp), h]

/-! ### Completeness of the text accounting (claim C1 machinery) -/

theorem stepWord_outTexts (mc : Int) (md sil : ℚ) (pb : List Char)
    (st : SegState) (w : Word) (b : Bool)
    (hclean : cleanOpen st) (hw : pyStrip w.word ≠ "") :
    joinSpace (outTexts (stepWord mc md sil pb st w b)) =
        joinSpace (outTexts st ++ [pyStrip w.word])
      ∧ cleanOpen (stepWord mc md sil pb st w b)
      ∧ outTexts (stepWord mc md sil pb st w b) ≠ [] := by
  obtain ⟨chunk, p, subs⟩ := st
  cases chunk with
  | none =>
    rw [stepWord_none]
    refine ⟨by simp [outTexts], ?_, by simp [outTexts]⟩
    intro c hc
    injection hc with hc
    subst hc
    exact ⟨pyStrip_idem _, hw⟩
  | some c =>
    obtain ⟨hcs, hcn⟩ := hclean c rfl
    have hprop : pyStrip (c.text ++ " " ++ pyStrip w.word)
        = c.text ++ " " ++ pyStrip w.word :=
      pyStrip_clean_append hcs (pyStrip_idem _) hcn hw
    have hfresh : cleanOpen (⟨some ⟨w.start, w.«end», pyStrip w.word⟩, w.«end»,
        subs ++ [⟨c.start, c.«end», pyStrip c.text⟩]⟩ : SegState) := by
      intro d hc'
      injection hc' with hc'
      subst hc'
      exact ⟨pyStrip_idem _, hw⟩
    have hclose : joinSpace (outTexts (⟨some ⟨w.start, w.«end», pyStrip w.word⟩,
        w.«end», subs ++ [⟨c.start, c.«end», pyStrip c.text⟩]⟩ : SegState)) =
        joinSpace (outTexts (⟨some c, p, subs⟩ : SegState) ++ [pyStrip w.word]) := by
      simp [outTexts, hcs, List.append_assoc]
    by_cases h1 : mc < ((pyStrip (c.text ++ " " ++ pyStrip w.word)).length : Int)
    · rw [stepWord_some_len h1]
      exact ⟨hclose, hfresh, by simp [outTexts]⟩
    · by_cases h2 : md < w.«end» - c.start
      · rw [stepWord_some_dur h1 h2]
        exact ⟨hclose, hfresh, by simp [outTexts]⟩
      · by_cases h3 : sil ≤ w.start - p ∧ 0 < c.text.length
        · rw [stepWord_some_sil h1 h2 h3]
          exact ⟨hclose, hfresh, by simp [outTexts]⟩
        · have e2 : outTexts (⟨some c, p, subs⟩ : SegState) =
              subs.map Chunk.text ++ [c.text] := rfl
          by_cases h4 : (endsInPunct pb (pyStrip w.word) && !b) = true
          · rw [stepWord_some_cut h1 h2 h3 h4]
            refine ⟨?_, ?_, by simp [outTexts]⟩
            · have e1 : outTexts (⟨none, w.«end», subs ++ [⟨c.start, w.«end»,
                  c.text ++ " " ++ pyStrip w.word⟩]⟩ : SegState) =
                  subs.map Chunk.text ++ [c.text ++ " " ++ pyStrip w.word] := by
                simp [outTexts]
              rw [pyStrip_idem, hprop, e1, e2, joinSpace_merge]
            · intro d hc'
              cases hc'
          · rw [stepWord_some_absorb h1 h2 h3 h4]
            refine ⟨?_, ?_, by simp [outTexts]⟩
            · have e1 : outTexts (⟨some ⟨c.start, w.«end»,
                  c.text ++ " " ++ pyStrip w.word⟩, w.«end», subs⟩ : SegState) =
                  subs.map Chunk.text ++ [c.text ++ " " ++ pyStrip w.word] := rfl
              rw [hprop, e1, e2, joinSpace_merge]
            · intro d hc'
              injection hc' with hc'
              subst hc'
              refine ⟨by rw [hprop]; exact hprop, ?_⟩
              rw [hprop]
              exact append_space_ne_empty _ _

theorem segLoop_outTexts (mc : Int) (md sil : ℚ) (pb : List Char) :
    ∀ (ws : List Word) (st : SegState),
    (∀ w ∈ ws, pyStrip w.word ≠ "") → cleanOpen st →
    joinSpace (outTexts (segLoop mc md sil pb st ws)) =
        joinSpace (outTexts st ++ ws.map (fun w => pyStrip w.word))
      ∧ cleanOpen (segLoop mc md sil pb st ws) := by
  intro ws
  induction ws with
  | nil =>
    intro st _ hcl
    exact ⟨by simp [segLoop_nil], hcl⟩
  | cons w ws ih =>
    intro st hw hcl
    have hw0 : pyStrip w.word ≠ "" := hw w (by simp)
    obtain ⟨hj, hcl1, hne⟩ :=
      stepWord_outTexts mc md sil pb st w ws.isEmpty hcl hw0
    obtain ⟨hj2, hcl2⟩ :=
      ih (stepWord mc md sil pb st w ws.isEmpty)
        (fun x hx => hw x (by simp [hx])) hcl1
    rw [segLoop_cons]
    refine ⟨?_, hcl2⟩
    rw [hj2]
    rw [show outTexts st ++ (w :: ws).map (fun w => pyStrip w.word) =
        (outTexts st ++ [pyStrip w.word]) ++ ws.map (fun w => pyStrip w.word) by
      simp]
    exact joinSpace_congr_append hj hne (by simp) _

theorem flushState_outTexts {st : SegState} (hcl : cleanOpen st) :
    (flushState st).map Chunk.text = outTexts st := by
  obtain ⟨chunk, p, subs⟩ := st
  cases chunk with
  | none => simp [flushState, outTexts]
  | some c =>
    obtain ⟨h1, h2⟩ := hcl c rfl
    simp [flushState, outTexts, h1, h2]

/-- Claim C1: for every non-empty input word sequence (each word's text
trimming to a non-empty string, words ordered by non-decreasing start), the
texts of the chunks emitted by the segmenter, joined across chunk boundaries
by single spaces, equal the space-join of the trimmed texts of all input
words — no word's text is omitted and none is duplicated. -/
theorem claim_C1 (mc : Int) (md sil : ℚ) (pb : List Char) (words : List Word)
    (hne : words ≠ [])
    (hwords : ∀ w ∈ words, pyStrip w.word ≠ "")
    (hord : List.Pairwise (fun a b : Word => a.start ≤ b.start) words) :
    joinSpace ((segmentWords mc md sil pb words).map Chunk.text) =
      joinSpace (words.map (fun w => pyStrip w.word)) := by
  obtain ⟨hj, hcl⟩ := segLoop_outTexts mc md sil pb words ⟨none, 0, []⟩ hwords
    (fun c hc => by cases hc)
  show joinSpace ((flushState (segLoop mc md sil pb ⟨none, 0, []⟩ words)).map
    Chunk.text) = _
  rw [flushState_outTexts hcl, hj]
  rfl

/-- Concrete instance of claim C1 on a three-word input. -/
theorem claim_C1_witness :
    ([⟨"Hola ", 0, 1⟩, ⟨"mundo.", 1, 2⟩, ⟨"Adios", 4, 5⟩] : List Word) ≠ []
    ∧ (∀ w ∈ ([⟨"Hola ", 0, 1⟩, ⟨"mundo.", 1, 2⟩, ⟨"Adios", 4, 5⟩] :
        List Word), pyStrip w.word ≠ "")
    ∧ List.Pairwise (fun a b : Word => a.start ≤ b.start)
        [⟨"Hola ", 0, 1⟩, ⟨"mundo.", 1, 2⟩, ⟨"Adios", 4, 5⟩]
    ∧ joinSpace ((segmentWords 60 5 1 ['.', '!', '?']
          [⟨"Hola ", 0, 1⟩, ⟨"mundo.", 1, 2⟩, ⟨"Adios", 4, 5⟩]).map Chunk.text)
        = joinSpace (([⟨"Hola ", 0, 1⟩, ⟨"mundo.", 1, 2⟩, ⟨"Adios", 4, 5⟩] :
            List Word).map (fun w => pyStrip w.word)) :=
  ⟨by decide, by decide, by norm_num [List.pairwise_cons],
    claim_C1 60 5 1 ['.', '!', '?'] _ (by decide) (by decide)
      (by norm_num [List.pairwise_cons])⟩

/-- Claim C2: a word whose addition would make the proposed text exceed
`max_chars` or the proposed duration exceed `max_duration` closes the current
chunk without that word and opens a fresh chunk with it; the punctuation check
is not evaluated for that word in that step: the outcome is the same for every
punctuation set and last-word flag (so a trailing punctuation character cannot
additionally fire a cut), and the fresh chunk stays open. -/
theorem claim_C2 (mc : Int) (md sil : ℚ) (pb : List Char) (c : Chunk) (p : ℚ)
    (subs : List Chunk) (w : Word) (b : Bool)
    (hover : mc < ((pyStrip (c.text ++ " " ++ pyStrip w.word)).length : Int)
      ∨ md < w.«end» - c.start) :
    stepWord mc md sil pb ⟨some c, p, subs⟩ w b =
      ⟨some ⟨w.start, w.«end», pyStrip w.word⟩, w.«end»,
        subs ++ [⟨c.start, c.«end», pyStrip c.text⟩]⟩
    ∧ ∀ (pb' : List Char) (b' : Bool),
        stepWord mc md sil pb ⟨some c, p, subs⟩ w b =
          stepWord mc md sil pb' ⟨some c, p, subs⟩ w b' := by
  have main : ∀ (pb₀ : List Char) (b₀ : Bool),
      stepWord mc md sil pb₀ ⟨some c, p, subs⟩ w b₀ =
        ⟨some ⟨w.start, w.«end», pyStrip w.word⟩, w.«end»,
          subs ++ [⟨c.start, c.«end», pyStrip c.text⟩]⟩ := by
    intro pb₀ b₀
    by_cases h1 : mc < ((pyStrip (c.text ++ " " ++ pyStrip w.word)).length : Int)
    · exact stepWord_some_len h1
    · rcases hover with h | h
      · exact absurd h h1
      · exact stepWord_some_dur h1 h
  exact ⟨main pb b, fun pb' b' => (main pb b).trans (main pb' b').symm⟩

/-- Concrete instance of claim C2: the word "there." overflows a six-character
limit while ending in a punctuation character; the chunk closes without it and
the punctuation cut does not fire. -/
theorem claim_C2_witness :
    ((5 : Int) < ((pyStrip (("Hello" : String) ++ " " ++
        pyStrip "there.")).length : Int) ∨ (5 : ℚ) < (2 : ℚ) - 0)
    ∧ stepWord 5 5 1 ['.', '!', '?'] ⟨some ⟨0, 1, "Hello"⟩, 1, []⟩
        ⟨"there.", 1, 2⟩ false =
        ⟨some ⟨1, 2, pyStrip "there."⟩, 2, [⟨0, 1, pyStrip "Hello"⟩]⟩ :=
  ⟨Or.inl (by decide),
    (claim_C2 5 5 1 ['.', '!', '?'] ⟨0, 1, "Hello"⟩ 1 [] ⟨"there.", 1, 2⟩ false
      (Or.inl (by decide))).1⟩

/-! ### Per-chunk invariants (length, duration, timestamps) -/

theorem flushState_mem {st : SegState} {c : Chunk} (h : c ∈ flushState st) :
    c ∈ st.subtitles ∨
      ∃ d, st.chunk = some d ∧ c = ⟨d.start, d.«end», pyStrip d.text⟩ := by
  obtain ⟨chunk, p, subs⟩ := st
  cases chunk with
  | none => exact Or.inl h
  | some d =>
    show c ∈ subs ∨ _
    by_cases hg : pyStrip d.text ≠ ""
    · rw [show flushState ⟨some d, p, subs⟩ =
          subs ++ [⟨d.start, d.«end», pyStrip d.text⟩] by
        simp [flushState, hg]] at h
      rcases List.mem_append.mp h with h | h
      · exact Or.inl h
      · exact Or.inr ⟨d, rfl, by simpa using h⟩
    · rw [show flushState ⟨some d, p, subs⟩ = subs by simp [flushState, hg]] at h
      exact Or.inl h

theorem stepWord_lenBound (mc : Int) (md sil : ℚ) (pb : List Char)
    (S : List String) (hS : ∀ s ∈ S, pyStrip s = s)
    (st : SegState) (w : Word) (b : Bool)
    (hw0 : pyStrip w.word ∈ S)
    (hsub : ∀ c ∈ st.subtitles, (c.text.length : Int) ≤ mc ∨ c.text ∈ S)
    (hopen : ∀ c, st.chunk = some c → (c.text.length : Int) ≤ mc ∨ c.text ∈ S) :
    (∀ c ∈ (stepWord mc md sil pb st w b).subtitles,
        (c.text.length : Int) ≤ mc ∨ c.text ∈ S)
    ∧ (∀ c, (stepWord mc md sil pb st w b).chunk = some c →
        (c.text.length : Int) ≤ mc ∨ c.text ∈ S) := by
  have emit_pres : ∀ t : String, ((t.length : Int) ≤ mc ∨ t ∈ S) →
      (((pyStrip t).length : Int) ≤ mc ∨ pyStrip t ∈ S) := by
    intro t ht
    rcases ht with ht | ht
    · refine Or.inl (le_trans ?_ ht)
      exact_mod_cast pyStrip_length_le t
    · rw [hS t ht]
      exact Or.inr ht
  obtain ⟨chunk, p, subs⟩ := st
  cases chunk with
  | none =>
    rw [stepWord_none]
    refine ⟨hsub, ?_⟩
    intro c hc
    injection hc with hc
    subst hc
    exact Or.inr hw0
  | some c =>
    have hc0 := hopen c rfl
    have hclose : ∀ d ∈ subs ++ [(⟨c.start, c.«end», pyStrip c.text⟩ : Chunk)],
        ((d.text.length : Int) ≤ mc ∨ d.text ∈ S) := by
      intro d hc'
      rcases List.mem_append.mp hc' with h | h
      · exact hsub d h
      · have : d = ⟨c.start, c.«end», pyStrip c.text⟩ := by simpa using h
        subst this
        exact emit_pres c.text hc0
    have hfresh : ∀ d, some (⟨w.start, w.«end», pyStrip w.word⟩ : Chunk) =
        some d → ((d.text.length : Int) ≤ mc ∨ d.text ∈ S) := by
      intro d hc'
      injection hc' with hc'
      subst hc'
      exact Or.inr hw0
    by_cases h1 : mc < ((pyStrip (c.text ++ " " ++ pyStrip w.word)).length : Int)
    · rw [stepWord_some_len h1]
      exact ⟨hclose, hfresh⟩
    · have hlen : ((pyStrip (c.text ++ " " ++ pyStrip w.word)).length : Int) ≤ mc :=
        le_of_not_lt h1
      by_cases h2 : md < w.«end» - c.start
      · rw [stepWord_some_dur h1 h2]
        exact ⟨hclose, hfresh⟩
      · by_cases h3 : sil ≤ w.start - p ∧ 0 < c.text.length
        · rw [stepWord_some_sil h1 h2 h3]
          exact ⟨hclose, hfresh⟩
        · by_cases h4 : (endsInPunct pb (pyStrip w.word) && !b) = true
          · rw [stepWord_some_cut h1 h2 h3 h4]
            refine ⟨?_, fun d hc' => by cases hc'⟩
            intro d hc'
            rcases List.mem_append.mp hc' with h | h
            · exact hsub d h
            · have : d = ⟨c.start, w.«end»,
                  pyStrip (pyStrip (c.text ++ " " ++ pyStrip w.word))⟩ := by
                simpa using h
              subst this
              refine Or.inl (le_trans ?_ hlen)
              exact_mod_cast pyStrip_length_le _
          · rw [stepWord_some_absorb h1 h2 h3 h4]
            refine ⟨hsub, ?_⟩
            intro d hc'
            injection hc' with hc'
            subst hc'
            exact Or.inl hlen

theorem segLoop_lenBound (mc : Int) (md sil : ℚ) (pb : List Char)
    (S : List String) (hS : ∀ s ∈ S, pyStrip s = s) :
    ∀ (ws : List Word) (st : SegState),
    (∀ w ∈ ws, pyStrip w.word ∈ S) →
    (∀ c ∈ st.subtitles, (c.text.length : Int) ≤ mc ∨ c.text ∈ S) →
    (∀ c, st.chunk = some c → (c.text.length : Int) ≤ mc ∨ c.text ∈ S) →
    (∀ c ∈ (segLoop mc md sil pb st ws).subtitles,
        (c.text.length : Int) ≤ mc ∨ c.text ∈ S)
    ∧ (∀ c, (segLoop mc md sil pb st ws).chunk = some c →
        (c.text.length : Int) ≤ mc ∨ c.text ∈ S) := by
  intro ws
  induction ws with
  | nil =>
    intro st _ hsub hopen
    exact ⟨hsub, hopen⟩
  | cons w ws ih =>
    intro st hw hsub hopen
    obtain ⟨h1, h2⟩ := stepWord_lenBound mc md sil pb S hS st w ws.isEmpty
      (hw w (by simp)) hsub hopen
    rw [segLoop_cons]
    exact ih _ (fun x hx => hw x (by simp [hx])) h1 h2

/-- Claim C3: every emitted chunk either respects the `max_chars` length bound
or is verbatim the trimmed text of a single input word (the only way a chunk
can exceed the bound, since a word is only ever added to a non-empty chunk
after the length check); and a single word whose trimmed text already exceeds
`max_chars` is still emitted as its own chunk, verbatim, neither split nor
rejected. -/
theorem claim_C3 (mc : Int) (md sil : ℚ) (pb : List Char) (words : List Word) :
    (∀ c ∈ segmentWords mc md sil pb words,
        (c.text.length : Int) ≤ mc ∨ ∃ w ∈ words, c.text = pyStrip w.word)
    ∧ (∀ w : Word, 0 ≤ mc → mc < ((pyStrip w.word).length : Int) →
        segmentWords mc md sil pb [w] = [⟨w.start, w.«end», pyStrip w.word⟩]) := by
  constructor
  · have hS : ∀ s ∈ words.map (fun w => pyStrip w.word), pyStrip s = s := by
      intro s hs
      obtain ⟨w, _, rfl⟩ := List.mem_map.mp hs
      exact pyStrip_idem _
    obtain ⟨hsub, hopen⟩ := segLoop_lenBound mc md sil pb
      (words.map (fun w => pyStrip w.word)) hS words ⟨none, 0, []⟩
      (fun w hw => List.mem_map.mpr ⟨w, hw, rfl⟩)
      (by intro c hc; simp at hc)
      (fun c hc => by cases hc)
    have convert : ∀ t : String, t ∈ words.map (fun w => pyStrip w.word) →
        ∃ w ∈ words, t = pyStrip w.word := by
      intro t ht
      obtain ⟨w, hw, hwt⟩ := List.mem_map.mp ht
      exact ⟨w, hw, hwt.symm⟩
    intro c hc
    rcases flushState_mem hc with h | ⟨d, hc', rfl⟩
    · rcases hsub c h with h' | h'
      · exact Or.inl h'
      · exact Or.inr (convert _ h')
    · rcases hopen d hc' with h' | h'
      · refine Or.inl ?_
        show ((pyStrip d.text).length : Int) ≤ mc
        refine le_trans ?_ h'
        exact_mod_cast pyStrip_length_le _
      · refine Or.inr ?_
        show ∃ w ∈ words, pyStrip d.text = pyStrip w.word
        rw [hS _ h']
        exact convert _ h'
  · intro w hmc hlen
    have hne2 : pyStrip w.word ≠ "" := by
      rw [ne_empty_iff_data]
      intro h0
      have hz : (pyStrip w.word).length = 0 := by
        rw [length_eq_data, h0]
        rfl
      rw [hz] at hlen
      omega
    show flushState (segLoop mc md sil pb ⟨none, 0, []⟩ [w]) = _
    rw [show segLoop mc md sil pb ⟨none, 0, []⟩ [w] =
        ⟨some ⟨w.start, w.«end», pyStrip w.word⟩, w.«end», []⟩ from rfl]
    simp [flushState, pyStrip_idem, hne2]

/-- Concrete instance of claim C3: a single eight-character word with
`max_chars = 5` becomes one verbatim chunk. -/
theorem claim_C3_witness :
    (0 ≤ (5 : Int)) ∧ ((5 : Int) < ((pyStrip ("abcdefgh" : String)).length : Int))
    ∧ (∀ c ∈ segmentWords 5 5 1 ['.', '!', '?'] [⟨"abcdefgh", 0, 1⟩],
        (c.text.length : Int) ≤ 5 ∨ ∃ w ∈ ([⟨"abcdefgh", 0, 1⟩] : List Word),
          c.text = pyStrip w.word)
    ∧ segmentWords 5 5 1 ['.', '!', '?'] [⟨"abcdefgh", 0, 1⟩] =
        [⟨0, 1, pyStrip "abcdefgh"⟩] :=
  ⟨by decide, by decide,
    (claim_C3 5 5 1 ['.', '!', '?'] [⟨"abcdefgh", 0, 1⟩]).1,
    (claim_C3 5 5 1 ['.', '!', '?'] [⟨"abcdefgh", 0, 1⟩]).2 ⟨"abcdefgh", 0, 1⟩
      (by decide) (by decide)⟩

theorem stepWord_durBound (mc : Int) (md sil : ℚ) (pb : List Char)
    (SP : List (ℚ × ℚ)) (st : SegState) (w : Word) (b : Bool)
    (hw0 : (w.start, w.«end») ∈ SP)
    (hsub : ∀ c ∈ st.subtitles, c.«end» - c.start ≤ md ∨ (c.start, c.«end») ∈ SP)
    (hopen : ∀ c, st.chunk = some c →
      c.«end» - c.start ≤ md ∨ (c.start, c.«end») ∈ SP) :
    (∀ c ∈ (stepWord mc md sil pb st w b).subtitles,
        c.«end» - c.start ≤ md ∨ (c.start, c.«end») ∈ SP)
    ∧ (∀ c, (stepWord mc md sil pb st w b).chunk = some c →
        c.«end» - c.start ≤ md ∨ (c.start, c.«end») ∈ SP) := by
  obtain ⟨chunk, p, subs⟩ := st
  cases chunk with
  | none =>
    rw [stepWord_none]
    refine ⟨hsub, ?_⟩
    intro c hc
    injection hc with hc
    subst hc
    exact Or.inr hw0
  | some c =>
    have hc0 := hopen c rfl
    have hclose : ∀ d ∈ subs ++ [(⟨c.start, c.«end», pyStrip c.text⟩ : Chunk)],
        (d.«end» - d.start ≤ md ∨ (d.start, d.«end») ∈ SP) := by
      intro d hc'
      rcases List.mem_append.mp hc' with h | h
      · exact hsub d h
      · have : d = ⟨c.start, c.«end», pyStrip c.text⟩ := by simpa using h
        subst this
        exact hc0
    have hfresh : ∀ d, some (⟨w.start, w.«end», pyStrip w.word⟩ : Chunk) =
        some d → (d.«end» - d.start ≤ md ∨ (d.start, d.«end») ∈ SP) := by
      intro d hc'
      injection hc' with hc'
      subst hc'
      exact Or.inr hw0
    by_cases h1 : mc < ((pyStrip (c.text ++ " " ++ pyStrip w.word)).length : Int)
    · rw [stepWord_some_len h1]
      exact ⟨hclose, hfresh⟩
    · by_cases h2 : md < w.«end» - c.start
      · rw [stepWord_some_dur h1 h2]
        exact ⟨hclose, hfresh⟩
      · have hdur : w.«end» - c.start ≤ md := le_of_not_lt h2
        by_cases h3 : sil ≤ w.start - p ∧ 0 < c.text.length
        · rw [stepWord_some_sil h1 h2 h3]
          exact ⟨hclose, hfresh⟩
        · by_cases h4 : (endsInPunct pb (pyStrip w.word) && !b) = true
          · rw [stepWord_some_cut h1 h2 h3 h4]
            refine ⟨?_, fun d hc' => by cases hc'⟩
            intro d hc'
            rcases List.mem_append.mp hc' with h | h
            · exact hsub d h
            · have : d = ⟨c.start, w.«end»,
                  pyStrip (pyStrip (c.text ++ " " ++ pyStrip w.word))⟩ := by
                simpa using h
              subst this
              exact Or.inl hdur
          · rw [stepWord_some_absorb h1 h2 h3 h4]
            refine ⟨hsub, ?_⟩
            intro d hc'
            injection hc' with hc'
            subst hc'
            exact Or.inl hdur

theorem segLoop_durBound (mc : Int) (md sil : ℚ) (pb : List Char)
    (SP : List (ℚ × ℚ)) :
    ∀ (ws : List Word) (st : SegState),
    (∀ w ∈ ws, (w.start, w.«end») ∈ SP) →
    (∀ c ∈ st.subtitles, c.«end» - c.start ≤ md ∨ (c.start, c.«end») ∈ SP) →
    (∀ c, st.chunk = some c →
      c.«end» - c.start ≤ md ∨ (c.start, c.«end») ∈ SP) →
    (∀ c ∈ (segLoop mc md sil pb st ws).subtitles,
        c.«end» - c.start ≤ md ∨ (c.start, c.«end») ∈ SP)
    ∧ (∀ c, (segLoop mc md sil pb st ws).chunk = some c →
        c.«end» - c.start ≤ md ∨ (c.start, c.«end») ∈ SP) := by
  intro ws
  induction ws with
  | nil =>
    intro st _ hsub hopen
    exact ⟨hsub, hopen⟩
  | cons w ws ih =>
    intro st hw hsub hopen
    obtain ⟨h1, h2⟩ := stepWord_durBound mc md sil pb SP st w ws.isEmpty
      (hw w (by simp)) hsub hopen
    rw [segLoop_cons]
    exact ih _ (fun x hx => hw x (by simp [hx])) h1 h2

/-- Claim C4: every emitted chunk either has duration at most `max_duration`
or carries the exact start and end timestamps of a single input word (the
single-word chunk case); and a chunk made of a single word whose own duration
exceeds `max_duration` is still emitted. -/
theorem claim_C4 (mc : Int) (md sil : ℚ) (pb : List Char) (words : List Word) :
    (∀ c ∈ segmentWords mc md sil pb words,
        c.«end» - c.start ≤ md ∨
          ∃ w ∈ words, c.start = w.start ∧ c.«end» = w.«end»)
    ∧ (∀ w : Word, pyStrip w.word ≠ "" → md < w.«end» - w.start →
        segmentWords mc md sil pb [w] = [⟨w.start, w.«end», pyStrip w.word⟩]) := by
  constructor
  · obtain ⟨hsub, hopen⟩ := segLoop_durBound mc md sil pb
      (words.map (fun w => (w.start, w.«end»))) words ⟨none, 0, []⟩
      (fun w hw => List.mem_map.mpr ⟨w, hw, rfl⟩)
      (by intro c hc; simp at hc)
      (fun c hc => by cases hc)
    have convert : ∀ q : ℚ × ℚ, q ∈ words.map (fun w => (w.start, w.«end»)) →
        ∃ w ∈ words, q.1 = w.start ∧ q.2 = w.«end» := by
      intro q hq
      obtain ⟨w, hw, hwq⟩ := List.mem_map.mp hq
      exact ⟨w, hw, by rw [← hwq], by rw [← hwq]⟩
    intro c hc
    rcases flushState_mem hc with h | ⟨d, hc', rfl⟩
    · rcases hsub c h with h' | h'
      · exact Or.inl h'
      · exact Or.inr (convert _ h')
    · rcases hopen d hc' with h' | h'
      · exact Or.inl h'
      · exact Or.inr (convert _ h')
  · intro w hne2 hdur
    show flushState (segLoop mc md sil pb ⟨none, 0, []⟩ [w]) = _
    rw [show segLoop mc md sil pb ⟨none, 0, []⟩ [w] =
        ⟨some ⟨w.start, w.«end», pyStrip w.word⟩, w.«end», []⟩ from rfl]
    simp [flushState, pyStrip_idem, hne2]

/-- Concrete instance of claim C4: a single word lasting ten seconds with
`max_duration = 5` becomes one chunk anyway. -/
theorem claim_C4_witness :
    pyStrip ("Hola" : String) ≠ "" ∧ ((5 : ℚ) < (10 : ℚ) - 0)
    ∧ (∀ c ∈ segmentWords 60 5 1 ['.', '!', '?'] [⟨"Hola", 0, 10⟩],
        c.«end» - c.start ≤ 5 ∨
          ∃ w ∈ ([⟨"Hola", 0, 10⟩] : List Word),
            c.start = w.start ∧ c.«end» = w.«end»)
    ∧ segmentWords 60 5 1 ['.', '!', '?'] [⟨"Hola", 0, 10⟩] =
        [⟨0, 10, pyStrip "Hola"⟩] :=
  ⟨by decide, by norm_num,
    (claim_C4 60 5 1 ['.', '!', '?'] [⟨"Hola", 0, 10⟩]).1,
    (claim_C4 60 5 1 ['.', '!', '?'] [⟨"Hola", 0, 10⟩]).2 ⟨"Hola", 0, 10⟩
      (by decide) (by norm_num)⟩

/-- Claim C5: when every recognizer segment lacks word-level data, the
aggregated word list is empty and the call signals the `NoWordData` condition
(the warning-and-early-return path of lines 68-71, under which no SRT file is
produced), an outcome distinct from a normal empty subtitle sequence. -/
theorem claim_C5 (result : List Segment) (mc : Int) (md sil : ℚ)
    (pb : List Char) (hnw : ∀ seg ∈ result, seg.words = none) :
    create_srt_with_natural_breaks result mc md sil pb =
        SegResult.error SegError.noWordData
    ∧ SegResult.error SegError.noWordData ≠ SegResult.ok ([] : List Chunk) := by
  have hagg : aggregateWords result = [] := by
    suffices h : ∀ rs : List Segment, (∀ seg ∈ rs, seg.words = none) →
        ∀ acc : List Word,
        rs.foldl (fun acc seg => acc ++ seg.words.getD []) acc = acc by
      exact h result hnw []
    intro rs
    induction rs with
    | nil => intro _ acc; rfl
    | cons s rs ih =>
      intro hn acc
      show List.foldl _ (acc ++ s.words.getD []) rs = acc
      rw [hn s (by simp)]
      rw [show (none : Option (List Word)).getD [] = [] from rfl, List.append_nil]
      exact ih (fun x hx => hn x (by simp [hx])) acc
  refine ⟨?_, by simp⟩
  show (if (aggregateWords result).isEmpty then _ else _) = _
  rw [hagg]
  rfl

/-- Concrete instance of claim C5 on a two-segment result without word data. -/
theorem claim_C5_witness :
    (∀ seg ∈ ([⟨none⟩, ⟨none⟩] : List Segment), seg.words = none)
    ∧ (create_srt_with_natural_breaks [⟨none⟩, ⟨none⟩] 60 5 1 ['.', '!', '?'] =
        SegResult.error SegError.noWordData
      ∧ SegResult.error SegError.noWordData ≠ SegResult.ok ([] : List Chunk)) :=
  ⟨by decide, claim_C5 [⟨none⟩, ⟨none⟩] 60 5 1 ['.', '!', '?'] (by decide)⟩

/-- Claim C6 as stated is false at a concrete input: with the non-positive
configuration `max_chars = -1`, `max_duration = -1` and the negative
`silence_threshold = -1`, the call is not rejected before processing: it
processes the word list and returns a normal segmentation result, not an
`InvalidConfiguration` error. -/
theorem claim_C6_counterexample :
    create_srt_with_natural_breaks [⟨some [⟨"Hola ", 0, 1⟩]⟩] (-1) (-1) (-1)
        ['.', '!', '?'] = SegResult.ok [⟨0, 1, "Hola"⟩]
    ∧ create_srt_with_natural_breaks [⟨some [⟨"Hola ", 0, 1⟩]⟩] (-1) (-1) (-1)
        ['.', '!', '?'] ≠ SegResult.error SegError.invalidConfiguration :=
  ⟨by decide, by decide⟩

/-- Claim C6 amended: the segmenter performs no configuration validation at
all — for every configuration, including non-positive `max_chars` or
`max_duration` and negative `silence_threshold`, it never signals
`InvalidConfiguration`, and whenever the aggregated word list is non-empty it
completes the pass and returns a normal segmentation result. -/
theorem claim_C6_amended_no_validation (result : List Segment) (mc : Int)
    (md sil : ℚ) (pb : List Char) :
    create_srt_with_natural_breaks result mc md sil pb ≠
        SegResult.error SegError.invalidConfiguration
    ∧ (aggregateWords result ≠ [] →
        create_srt_with_natural_breaks result mc md sil pb =
          SegResult.ok (segmentWords mc md sil pb (aggregateWords result))) := by
  show ((if (aggregateWords result).isEmpty then _ else _) ≠ _) ∧
    (_ → (if (aggregateWords result).isEmpty then _ else _) = _)
  by_cases h : (aggregateWords result).isEmpty
  · rw [if_pos h]
    exact ⟨by simp, fun hne => absurd (List.isEmpty_iff.mp h) hne⟩
  · rw [if_neg h]
    exact ⟨by simp, fun _ => rfl⟩

/-- Concrete instance of the amended claim C6. -/
theorem claim_C6_witness :
    aggregateWords [⟨some [⟨"Hola ", 0, 1⟩]⟩] ≠ []
    ∧ create_srt_with_natural_breaks [⟨some [⟨"Hola ", 0, 1⟩]⟩] (-1) (-1) (-1)
        ['.', '!', '?'] ≠ SegResult.error SegError.invalidConfiguration
    ∧ create_srt_with_natural_breaks [⟨some [⟨"Hola ", 0, 1⟩]⟩] (-1) (-1) (-1)
        ['.', '!', '?'] = SegResult.ok (segmentWords (-1) (-1) (-1)
          ['.', '!', '?'] (aggregateWords [⟨some [⟨"Hola ", 0, 1⟩]⟩])) :=
  ⟨by decide,
    (claim_C6_amended_no_validation [⟨some [⟨"Hola ", 0, 1⟩]⟩] (-1) (-1) (-1)
      ['.', '!', '?']).1,
    (claim_C6_amended_no_validation [⟨some [⟨"Hola ", 0, 1⟩]⟩] (-1) (-1) (-1)
      ['.', '!', '?']).2 (by decide)⟩

/-! ### The timestamp formatter -/

theorem pytrunc_intCast (n : ℤ) : pytrunc ((n : ℚ)) = n := by
  unfold pytrunc
  by_cases h : ((n : ℚ)) < 0
  · rw [if_pos h, ← Int.cast_neg, Int.floor_intCast]
    ring
  · rw [if_neg h, Int.floor_intCast]

theorem pytrunc_of_nonneg {q : ℚ} (h : 0 ≤ q) : pytrunc q = ⌊q⌋ :=
  if_neg (not_lt.mpr h)

theorem convert_components (s : ℚ) (hs : 0 ≤ s) :
    convert_seconds_to_srt_time s =
      pyFormat0 2 ⌊s / 3600⌋ ++ ":" ++
        pyFormat0 2 ((⌊s / 60⌋.toNat % 60 : ℕ) : ℤ) ++ ":" ++
        pyFormat0 2 ((⌊s⌋.toNat % 60 : ℕ) : ℤ) ++ "," ++
        pyFormat0 3 ((⌊s * 1000⌋.toNat % 1000 : ℕ) : ℤ) := by
  have f1 : (0 : ℤ) ≤ ⌊s⌋ := Int.floor_nonneg.mpr hs
  have f60 : (0 : ℤ) ≤ ⌊s / 60⌋ := Int.floor_nonneg.mpr (by positivity)
  have f3600 : (0 : ℤ) ≤ ⌊s / 3600⌋ := Int.floor_nonneg.mpr (by positivity)
  have f1000 : (0 : ℤ) ≤ ⌊s * 1000⌋ := Int.floor_nonneg.mpr (by positivity)
  have r1 : ⌊s / 60⌋.toNat = ⌊s⌋.toNat / 60 := by
    rw [Int.floor_toNat, Int.floor_toNat]
    have h := Nat.floor_div_nat s 60
    rw [show ((60 : ℕ) : ℚ) = 60 by norm_num] at h
    exact h
  have r2 : ⌊s / 3600⌋.toNat = ⌊s / 60⌋.toNat / 60 := by
    rw [Int.floor_toNat, Int.floor_toNat]
    have h := Nat.floor_div_nat (s / 60) 60
    rw [show s / 60 / ((60 : ℕ) : ℚ) = s / 3600 by push_cast; ring] at h
    exact h
  have r3 : ⌊s⌋.toNat = ⌊s * 1000⌋.toNat / 1000 := by
    rw [Int.floor_toNat, Int.floor_toNat]
    have h := Nat.floor_div_nat (s * 1000) 1000
    rw [show s * 1000 / ((1000 : ℕ) : ℚ) = s by push_cast; ring] at h
    exact h
  have e_h : pytrunc (pyFloorDiv s 3600) = ⌊s / 3600⌋ := pytrunc_intCast _
  have e_m : pytrunc (pyFloorDiv (pyMod s 3600) 60) =
      ⌊s / 60⌋ - 60 * ⌊s / 3600⌋ := by
    have e : pyMod s 3600 / 60 = s / 60 - ((60 * ⌊s / 3600⌋ : ℤ) : ℚ) := by
      unfold pyMod pyFloorDiv
      push_cast
      ring
    unfold pyFloorDiv
    rw [pytrunc_intCast, e, Int.floor_sub_int]
  have e_s : pytrunc (pyMod s 60) = ⌊s⌋ - 60 * ⌊s / 60⌋ := by
    have hq : ((⌊s / 60⌋ : ℤ) : ℚ) ≤ s / 60 := Int.floor_le _
    have h60 : (60 : ℚ) * (s / 60) = s := by ring
    have hnn : 0 ≤ pyMod s 60 := by
      unfold pyMod pyFloorDiv
      nlinarith
    have e : pyMod s 60 = s - ((60 * ⌊s / 60⌋ : ℤ) : ℚ) := by
      unfold pyMod pyFloorDiv
      push_cast
      ring
    rw [pytrunc_of_nonneg hnn, e, Int.floor_sub_int]
  have e_ms : pytrunc ((s - (pytrunc s : ℚ)) * 1000) =
      ⌊s * 1000⌋ - 1000 * ⌊s⌋ := by
    have hfl : ((⌊s⌋ : ℤ) : ℚ) ≤ s := Int.floor_le _
    have hnn : 0 ≤ (s - (pytrunc s : ℚ)) * 1000 := by
      rw [pytrunc_of_nonneg hs]
      nlinarith
    have e : (s - (pytrunc s : ℚ)) * 1000 =
        s * 1000 - ((1000 * ⌊s⌋ : ℤ) : ℚ) := by
      rw [pytrunc_of_nonneg hs]
      push_cast
      ring
    rw [pytrunc_of_nonneg hnn, e, Int.floor_sub_int]
  have g_m : ⌊s / 60⌋ - 60 * ⌊s / 3600⌋ = ((⌊s / 60⌋.toNat % 60 : ℕ) : ℤ) := by
    omega
  have g_s : ⌊s⌋ - 60 * ⌊s / 60⌋ = ((⌊s⌋.toNat % 60 : ℕ) : ℤ) := by
    omega
  have g_ms : ⌊s * 1000⌋ - 1000 * ⌊s⌋ =
      ((⌊s * 1000⌋.toNat % 1000 : ℕ) : ℤ) := by
    omega
  show pyFormat0 2 (pytrunc (pyFloorDiv s 3600)) ++ ":" ++
      pyFormat0 2 (pytrunc (pyFloorDiv (pyMod s 3600) 60)) ++ ":" ++
      pyFormat0 2 (pytrunc (pyMod s 60)) ++ "," ++
      pyFormat0 3 (pytrunc ((s - (pytrunc s : ℚ)) * 1000)) = _
  rw [e_h, e_m, e_s, e_ms, g_m, g_s, g_ms]

/-- Claim C7: for every non-negative number of seconds the formatter returns
the string `HH:MM:SS,mmm` built from the zero-padded full hours (unbounded,
never truncated modulo anything), minutes and seconds below 60 and the
truncated — not rounded — 3-digit milliseconds; in particular
`format 0 = "00:00:00,000"` and `format 3661.5 = "01:01:01,500"`, and repeated
calls on the same input return the same string. -/
theorem claim_C7 (s : ℚ) (hs : 0 ≤ s) :
    (convert_seconds_to_srt_time s =
      pyFormat0 2 ⌊s / 3600⌋ ++ ":" ++
        pyFormat0 2 ((⌊s / 60⌋.toNat % 60 : ℕ) : ℤ) ++ ":" ++
        pyFormat0 2 ((⌊s⌋.toNat % 60 : ℕ) : ℤ) ++ "," ++
        pyFormat0 3 ((⌊s * 1000⌋.toNat % 1000 : ℕ) : ℤ))
    ∧ 0 ≤ ⌊s / 3600⌋
    ∧ ⌊s / 60⌋.toNat % 60 < 60
    ∧ ⌊s⌋.toNat % 60 < 60
    ∧ ⌊s * 1000⌋.toNat % 1000 < 1000
    ∧ convert_seconds_to_srt_time 0 = "00:00:00,000"
    ∧ convert_seconds_to_srt_time (3661.5 : ℚ) = "01:01:01,500"
    ∧ convert_seconds_to_srt_time s = convert_seconds_to_srt_time s := by
  refine ⟨convert_components s hs, Int.floor_nonneg.mpr (by positivity),
    Nat.mod_lt _ (by norm_num), Nat.mod_lt _ (by norm_num),
    Nat.mod_lt _ (by norm_num), ?_, ?_, rfl⟩
  · norm_num [convert_seconds_to_srt_time, pytrunc, pyFloorDiv, pyMod]
    decide
  · norm_num [convert_seconds_to_srt_time, pytrunc, pyFloorDiv, pyMod]
    decide

/-- Concrete instance of claim C7 at `3661.5` seconds. -/
theorem claim_C7_witness :
    (0 : ℚ) ≤ (3661.5 : ℚ)
    ∧ convert_seconds_to_srt_time (3661.5 : ℚ) = "01:01:01,500" :=
  ⟨by norm_num, (claim_C7 (3661.5 : ℚ) (by norm_num)).2.2.2.2.2.2.1⟩

/-! ### The final word never fires a punctuation cut -/

theorem stepWord_last_punct_irrelevant (mc : Int) (md sil : ℚ)
    (pb pb' : List Char) (st : SegState) (w : Word) :
    stepWord mc md sil pb st w true = stepWord mc md sil pb' st w true := by
  obtain ⟨chunk, p, subs⟩ := st
  cases chunk with
  | none => rfl
  | some c =>
    by_cases h1 : mc < ((pyStrip (c.text ++ " " ++ pyStrip w.word)).length : Int)
    · rw [stepWord_some_len h1, stepWord_some_len h1]
    · by_cases h2 : md < w.«end» - c.start
      · rw [stepWord_some_dur h1 h2, stepWord_some_dur h1 h2]
      · by_cases h3 : sil ≤ w.start - p ∧ 0 < c.text.length
        · rw [stepWord_some_sil h1 h2 h3, stepWord_some_sil h1 h2 h3]
        · have h4 : ¬ (endsInPunct pb (pyStrip w.word) && !true) = true := by simp
          have h4' : ¬ (endsInPunct pb' (pyStrip w.word) && !true) = true := by
            simp
          rw [stepWord_some_absorb h1 h2 h3 h4,
            stepWord_some_absorb h1 h2 h3 h4']

theorem stepWord_last_keeps_chunk (mc : Int) (md sil : ℚ) (pb : List Char)
    (st : SegState) (w : Word) :
    ((stepWord mc md sil pb st w true).chunk).isSome = true := by
  obtain ⟨chunk, p, subs⟩ := st
  cases chunk with
  | none => rfl
  | some c =>
    by_cases h1 : mc < ((pyStrip (c.text ++ " " ++ pyStrip w.word)).length : Int)
    · rw [stepWord_some_len h1]
      rfl
    · by_cases h2 : md < w.«end» - c.start
      · rw [stepWord_some_dur h1 h2]
        rfl
      · by_cases h3 : sil ≤ w.start - p ∧ 0 < c.text.length
        · rw [stepWord_some_sil h1 h2 h3]
          rfl
        · have h4 : ¬ (endsInPunct pb (pyStrip w.word) && !true) = true := by simp
          rw [stepWord_some_absorb h1 h2 h3 h4]
          rfl

/-- Claim C8: a punctuation-forced cut never fires on the last word of the
whole input.  The run on `ws ++ [w]` equals the run in which the final step
uses an empty punctuation set (so the output is the same as if the final word
carried no punctuation) followed by the post-loop flush, which emits the
chunk containing the final word exactly when its remaining text is non-empty;
moreover after processing the last word the chunk is still open — it was not
closed by the punctuation branch. -/
theorem claim_C8 (mc : Int) (md sil : ℚ) (pb : List Char) (ws : List Word)
    (w : Word) :
    segmentWords mc md sil pb (ws ++ [w]) =
      flushState (stepWord mc md sil []
        (segLoopMid mc md sil pb ⟨none, 0, []⟩ ws) w true)
    ∧ ∀ st : SegState, ((stepWord mc md sil pb st w true).chunk).isSome = true := by
  constructor
  · show flushState (segLoop mc md sil pb ⟨none, 0, []⟩ (ws ++ [w])) = _
    rw [segLoop_append_last mc md sil pb w ws ⟨none, 0, []⟩,
      stepWord_last_punct_irrelevant mc md sil pb [] _ w]
  · intro st
    exact stepWord_last_keeps_chunk mc md sil pb st w

/-! ### Timestamps of chunks come from input words -/

theorem stepWord_timesFrom (mc : Int) (md sil : ℚ) (pb : List Char)
    (SS ES : List ℚ) (st : SegState) (w : Word) (b : Bool)
    (hw0 : w.start ∈ SS ∧ w.«end» ∈ ES)
    (hsub : ∀ c ∈ st.subtitles, c.start ∈ SS ∧ c.«end» ∈ ES)
    (hopen : ∀ c, st.chunk = some c → c.start ∈ SS ∧ c.«end» ∈ ES) :
    (∀ c ∈ (stepWord mc md sil pb st w b).subtitles,
        c.start ∈ SS ∧ c.«end» ∈ ES)
    ∧ (∀ c, (stepWord mc md sil pb st w b).chunk = some c →
        c.start ∈ SS ∧ c.«end» ∈ ES) := by
  obtain ⟨chunk, p, subs⟩ := st
  cases chunk with
  | none =>
    rw [stepWord_none]
    refine ⟨hsub, ?_⟩
    intro c hc
    injection hc with hc
    subst hc
    exact hw0
  | some c =>
    have hc0 := hopen c rfl
    have hclose : ∀ d ∈ subs ++ [(⟨c.start, c.«end», pyStrip c.text⟩ : Chunk)],
        (d.start ∈ SS ∧ d.«end» ∈ ES) := by
      intro d hc'
      rcases List.mem_append.mp hc' with h | h
      · exact hsub d h
      · have : d = ⟨c.start, c.«end», pyStrip c.text⟩ := by simpa using h
        subst this
        exact hc0
    have hfresh : ∀ d, some (⟨w.start, w.«end», pyStrip w.word⟩ : Chunk) =
        some d → (d.start ∈ SS ∧ d.«end» ∈ ES) := by
      intro d hc'
      injection hc' with hc'
      subst hc'
      exact hw0
    by_cases h1 : mc < ((pyStrip (c.text ++ " " ++ pyStrip w.word)).length : Int)
    · rw [stepWord_some_len h1]
      exact ⟨hclose, hfresh⟩
    · by_cases h2 : md < w.«end» - c.start
      · rw [stepWord_some_dur h1 h2]
        exact ⟨hclose, hfresh⟩
      · by_cases h3 : sil ≤ w.start - p ∧ 0 < c.text.length
        · rw [stepWord_some_sil h1 h2 h3]
          exact ⟨hclose, hfresh⟩
        · by_cases h4 : (endsInPunct pb (pyStrip w.word) && !b) = true
          · rw [stepWord_some_cut h1 h2 h3 h4]
            refine ⟨?_, fun d hc' => by cases hc'⟩
            intro d hc'
            rcases List.mem_append.mp hc' with h | h
            · exact hsub d h
            · have : d = ⟨c.start, w.«end»,
                  pyStrip (pyStrip (c.text ++ " " ++ pyStrip w.word))⟩ := by
                simpa using h
              subst this
              exact ⟨hc0.1, hw0.2⟩
          · rw [stepWord_some_absorb h1 h2 h3 h4]
            refine ⟨hsub, ?_⟩
            intro d hc'
            injection hc' with hc'
            subst hc'
            exact ⟨hc0.1, hw0.2⟩

theorem segLoop_timesFrom (mc : Int) (md sil : ℚ) (pb : List Char)
    (SS ES : List ℚ) :
    ∀ (ws : List Word) (st : SegState),
    (∀ w ∈ ws, w.start ∈ SS ∧ w.«end» ∈ ES) →
    (∀ c ∈ st.subtitles, c.start ∈ SS ∧ c.«end» ∈ ES) →
    (∀ c, st.chunk = some c → c.start ∈ SS ∧ c.«end» ∈ ES) →
    (∀ c ∈ (segLoop mc md sil pb st ws).subtitles,
        c.start ∈ SS ∧ c.«end» ∈ ES)
    ∧ (∀ c, (segLoop mc md sil pb st ws).chunk = some c →
        c.start ∈ SS ∧ c.«end» ∈ ES) := by
  intro ws
  induction ws with
  | nil =>
    intro st _ hsub hopen
    exact ⟨hsub, hopen⟩
  | cons w ws ih =>
    intro st hw hsub hopen
    obtain ⟨h1, h2⟩ := stepWord_timesFrom mc md sil pb SS ES st w ws.isEmpty
      (hw w (by simp)) hsub hopen
    rw [segLoop_cons]
    exact ih _ (fun x hx => hw x (by simp [hx])) h1 h2

/-! ### Temporal ordering of the emitted chunks -/

theorem segLoop_ordInv (mc : Int) (md sil : ℚ) (pb : List Char) :
    ∀ (ws : List Word) (st : SegState),
    (∀ x ∈ ws, x.start ≤ x.«end») →
    (∀ c ∈ st.subtitles, c.start ≤ c.«end») →
    (∀ c, st.chunk = some c → c.start ≤ c.«end») →
    List.Pairwise (· ≤ ·) (st.subtitles.map Chunk.start ++
      chunkStartList st.chunk ++ ws.map Word.start) →
    (∀ c ∈ (segLoop mc md sil pb st ws).subtitles, c.start ≤ c.«end»)
    ∧ (∀ c, (segLoop mc md sil pb st ws).chunk = some c → c.start ≤ c.«end»)
    ∧ List.Pairwise (· ≤ ·)
        ((segLoop mc md sil pb st ws).subtitles.map Chunk.start ++
          chunkStartList (segLoop mc md sil pb st ws).chunk) := by
  intro ws
  induction ws with
  | nil =>
    intro st _ hsub hopen hsort
    refine ⟨hsub, hopen, ?_⟩
    simpa using hsort
  | cons w ws ih =>
    intro st hws hsub hopen hsort
    have hwse : w.start ≤ w.«end» := hws w (by simp)
    have hws' : ∀ x ∈ ws, x.start ≤ x.«end» := fun x hx => hws x (by simp [hx])
    rw [segLoop_cons]
    obtain ⟨chunk, p, subs⟩ := st
    cases chunk with
    | none =>
      rw [stepWord_none]
      refine ih _ hws' hsub ?_ ?_
      · intro c hc
        injection hc with hc
        subst hc
        exact hwse
      · rw [show (subs.map Chunk.start ++ chunkStartList (some ⟨w.start,
            w.«end», pyStrip w.word⟩) ++ ws.map Word.start) =
            subs.map Chunk.start ++ chunkStartList none ++
              (w :: ws).map Word.start by simp [chunkStartList]]
        exact hsort
    | some c =>
      have hc0 := hopen c rfl
      have hshape : subs.map Chunk.start ++ chunkStartList (some c) ++
          (w :: ws).map Word.start = (subs.map Chunk.start ++ [c.start]) ++
          (w.start :: ws.map Word.start) := by simp [chunkStartList]
      have hcw : c.start ≤ w.start := by
        have h := hsort
        rw [hshape] at h
        exact (List.pairwise_append.mp h).2.2 c.start (by simp) w.start (by simp)
      have hcwe : c.start ≤ w.«end» := le_trans hcw hwse
      have hsort_drop : List.Pairwise (· ≤ ·)
          ((subs.map Chunk.start ++ [c.start]) ++ ws.map Word.start) := by
        refine List.Pairwise.sublist ?_ (hshape ▸ hsort)
        exact List.Sublist.append_left (List.sublist_cons_self _ _) _
      have hclose_se : ∀ d ∈ subs ++
          [(⟨c.start, c.«end», pyStrip c.text⟩ : Chunk)], d.start ≤ d.«end» := by
        intro d hc'
        rcases List.mem_append.mp hc' with h | h
        · exact hsub d h
        · have : d = ⟨c.start, c.«end», pyStrip c.text⟩ := by simpa using h
          subst this
          exact hc0
      have hfresh : ∀ d, some (⟨w.start, w.«end», pyStrip w.word⟩ : Chunk) =
          some d → d.start ≤ d.«end» := by
        intro d hc'
        injection hc' with hc'
        subst hc'
        exact hwse
      have hsort_close : List.Pairwise (· ≤ ·)
          ((subs ++ [(⟨c.start, c.«end», pyStrip c.text⟩ : Chunk)]).map
            Chunk.start ++ chunkStartList (some ⟨w.start, w.«end»,
            pyStrip w.word⟩) ++ ws.map Word.start) := by
        rw [show (subs ++ [(⟨c.start, c.«end», pyStrip c.text⟩ : Chunk)]).map
            Chunk.start ++ chunkStartList (some ⟨w.start, w.«end»,
            pyStrip w.word⟩) ++ ws.map Word.start =
            subs.map Chunk.start ++ chunkStartList (some c) ++
              (w :: ws).map Word.start by simp [chunkStartList]]
        exact hsort
      by_cases h1 : mc < ((pyStrip (c.text ++ " " ++ pyStrip w.word)).length : Int)
      · rw [stepWord_some_len h1]
        exact ih _ hws' hclose_se hfresh hsort_close
      · by_cases h2 : md < w.«end» - c.start
        · rw [stepWord_some_dur h1 h2]
          exact ih _ hws' hclose_se hfresh hsort_close
        · by_cases h3 : sil ≤ w.start - p ∧ 0 < c.text.length
          · rw [stepWord_some_sil h1 h2 h3]
            exact ih _ hws' hclose_se hfresh hsort_close
          · by_cases h4 : (endsInPunct pb (pyStrip w.word) && !ws.isEmpty) = true
            case pos =>
              rw [stepWord_some_cut h1 h2 h3 h4]
              refine ih _ hws' ?_ (fun d hc' => by cases hc') ?_
              · intro d hc'
                rcases List.mem_append.mp hc' with h | h
                · exact hsub d h
                · have : d = ⟨c.start, w.«end», pyStrip (pyStrip (c.text ++
                      " " ++ pyStrip w.word))⟩ := by simpa using h
                  subst this
                  exact hcwe
              · rw [show (subs ++ [(⟨c.start, w.«end», pyStrip (pyStrip (c.text
                    ++ " " ++ pyStrip w.word))⟩ : Chunk)]).map Chunk.start ++
                    chunkStartList none ++ ws.map Word.start =
                    (subs.map Chunk.start ++ [c.start]) ++ ws.map Word.start by
                  simp [chunkStartList]]
                exact hsort_drop
            case neg =>
              rw [stepWord_some_absorb h1 h2 h3 h4]
              refine ih _ hws' hsub ?_ ?_
              · intro d hc'
                injection hc' with hc'
                subst hc'
                exact hcwe
              · rw [show subs.map Chunk.start ++ chunkStartList (some ⟨c.start,
                    w.«end», pyStrip (c.text ++ " " ++ pyStrip w.word)⟩) ++
                    ws.map Word.start =
                    (subs.map Chunk.start ++ [c.start]) ++ ws.map Word.start by
                  simp [chunkStartList]]
                exact hsort_drop

/-- Claim C9: for input words with `start ≤ end`, ordered by non-decreasing
start, every emitted chunk satisfies `start ≤ end`; the emitted chunks are
non-decreasing in start; every chunk's start and end are timestamps of input
words (nothing synthesized); a chunk opened on a word carries exactly that
word's start and end; and a step that leaves a chunk open either preserves
the chunk's start while moving its end to the absorbed word's end, or has
replaced it by a fresh chunk carrying the new word's own timestamps. -/
theorem claim_C9 (mc : Int) (md sil : ℚ) (pb : List Char) (words : List Word)
    (hse : ∀ w ∈ words, w.start ≤ w.«end»)
    (hsort : List.Sorted (· ≤ ·) (words.map Word.start)) :
    (∀ c ∈ segmentWords mc md sil pb words, c.start ≤ c.«end»)
    ∧ List.Sorted (· ≤ ·) ((segmentWords mc md sil pb words).map Chunk.start)
    ∧ (∀ c ∈ segmentWords mc md sil pb words,
        (∃ w ∈ words, c.start = w.start) ∧ (∃ w ∈ words, c.«end» = w.«end»))
    ∧ (∀ (p : ℚ) (subs : List Chunk) (w : Word) (b : Bool),
        stepWord mc md sil pb ⟨none, p, subs⟩ w b =
          ⟨some ⟨w.start, w.«end», pyStrip w.word⟩, w.«end», subs⟩)
    ∧ (∀ (c : Chunk) (p : ℚ) (subs : List Chunk) (w : Word) (b : Bool)
        (d : Chunk),
        (stepWord mc md sil pb ⟨some c, p, subs⟩ w b).chunk = some d →
          (d.start = c.start ∧ d.«end» = w.«end») ∨
          (d.start = w.start ∧ d.«end» = w.«end»)) := by
  obtain ⟨hsub, hopen, hord⟩ := segLoop_ordInv mc md sil pb words ⟨none, 0, []⟩
    hse (by intro c hc; simp at hc) (fun c hc => by cases hc)
    (by simpa [chunkStartList] using hsort)
  obtain ⟨tsub, topen⟩ := segLoop_timesFrom mc md sil pb
    (words.map Word.start) (words.map Word.«end») words ⟨none, 0, []⟩
    (fun w hw => ⟨List.mem_map.mpr ⟨w, hw, rfl⟩, List.mem_map.mpr ⟨w, hw, rfl⟩⟩)
    (by intro c hc; simp at hc) (fun c hc => by cases hc)
  refine ⟨?_, ?_, ?_, ?_, ?_⟩
  · intro c hc
    rcases flushState_mem hc with h | ⟨d, hc', rfl⟩
    · exact hsub c h
    · exact hopen d hc'
  · show List.Sorted (· ≤ ·)
      ((flushState (segLoop mc md sil pb ⟨none, 0, []⟩ words)).map Chunk.start)
    rcases hst : segLoop mc md sil pb ⟨none, 0, []⟩ words with ⟨chunk', p', subs'⟩
    rw [hst] at hord
    cases chunk' with
    | none => simpa [flushState, chunkStartList] using hord
    | some d =>
      by_cases hg : pyStrip d.text ≠ ""
      · rw [show flushState ⟨some d, p', subs'⟩ =
            subs' ++ [⟨d.start, d.«end», pyStrip d.text⟩] by
          simp [flushState, hg]]
        simpa [chunkStartList] using hord
      · rw [show flushState ⟨some d, p', subs'⟩ = subs' by
          simp [flushState, hg]]
        have hord' : List.Pairwise (· ≤ ·)
            (subs'.map Chunk.start ++ [d.start]) := by
          simpa [chunkStartList] using hord
        exact List.Pairwise.sublist (List.sublist_append_left _ _) hord'
  · intro c hc
    have hmem : c.start ∈ words.map Word.start ∧
        c.«end» ∈ words.map Word.«end» := by
      rcases flushState_mem hc with h | ⟨d, hc', rfl⟩
      · exact tsub c h
      · exact topen d hc'
    constructor
    · obtain ⟨w, hw, hws⟩ := List.mem_map.mp hmem.1
      exact ⟨w, hw, hws.symm⟩
    · obtain ⟨w, hw, hws⟩ := List.mem_map.mp hmem.2
      exact ⟨w, hw, hws.symm⟩
  · intro p subs w b
    exact stepWord_none mc md sil pb p subs w b
  · intro c p subs w b d hc'
    by_cases h1 : mc < ((pyStrip (c.text ++ " " ++ pyStrip w.word)).length : Int)
    · rw [stepWord_some_len h1] at hc'
      injection hc' with hc'
      subst hc'
      exact Or.inr ⟨rfl, rfl⟩
    · by_cases h2 : md < w.«end» - c.start
      · rw [stepWord_some_dur h1 h2] at hc'
        injection hc' with hc'
        subst hc'
        exact Or.inr ⟨rfl, rfl⟩
      · by_cases h3 : sil ≤ w.start - p ∧ 0 < c.text.length
        · rw [stepWord_some_sil h1 h2 h3] at hc'
          injection hc' with hc'
          subst hc'
          exact Or.inr ⟨rfl, rfl⟩
        · by_cases h4 : (endsInPunct pb (pyStrip w.word) && !b) = true
          · rw [stepWord_some_cut h1 h2 h3 h4] at hc'
            cases hc'
          · rw [stepWord_some_absorb h1 h2 h3 h4] at hc'
            injection hc' with hc'
            subst hc'
            exact Or.inl ⟨rfl, rfl⟩

/-- Concrete instance of claim C9 on a three-word input. -/
theorem claim_C9_witness :
    (∀ w ∈ ([⟨"Hola ", 0, 1⟩, ⟨"mundo.", 1, 2⟩, ⟨"Adios", 4, 5⟩] : List Word),
      w.start ≤ w.«end»)
    ∧ List.Sorted (· ≤ ·) (([⟨"Hola ", 0, 1⟩, ⟨"mundo.", 1, 2⟩,
        ⟨"Adios", 4, 5⟩] : List Word).map Word.start)
    ∧ (∀ c ∈ segmentWords 60 5 1 ['.', '!', '?']
        [⟨"Hola ", 0, 1⟩, ⟨"mundo.", 1, 2⟩, ⟨"Adios", 4, 5⟩],
        c.start ≤ c.«end») :=
  ⟨by decide, by decide,
    (claim_C9 60 5 1 ['.', '!', '?']
      [⟨"Hola ", 0, 1⟩, ⟨"mundo.", 1, 2⟩, ⟨"Adios", 4, 5⟩]
      (by decide) (by decide)).1⟩

/-- Claim C10: a word whose text trims to the empty string never triggers a
punctuation-forced cut — the last-character test treats it as having no last
character — so a step on such a word never closes the chunk through the
punctuation branch (second conjunct), and when the word is absorbed into an
open chunk with already-stripped text, the chunk's end time is extended to
the word's end while its text is unchanged and the chunk stays open (first
conjunct). -/
theorem claim_C10 (mc : Int) (md sil : ℚ) (pb : List Char) (c : Chunk) (p : ℚ)
    (subs : List Chunk) (w : Word) (b : Bool)
    (hw : pyStrip w.word = "")
    (hstrip : pyStrip c.text = c.text)
    (hlen : ¬ mc < (c.text.length : Int))
    (hdur : ¬ md < w.«end» - c.start)
    (hsil : ¬ (sil ≤ w.start - p ∧ 0 < c.text.length)) :
    stepWord mc md sil pb ⟨some c, p, subs⟩ w b =
      ⟨some ⟨c.start, w.«end», c.text⟩, w.«end», subs⟩
    ∧ ∀ (st : SegState) (b' : Bool),
        ((stepWord mc md sil pb st w b').chunk).isSome = true := by
  have hpunct : ∀ b₀ : Bool,
      ¬ (endsInPunct pb (pyStrip w.word) && !b₀) = true := by
    intro b₀
    rw [hw]
    simp [endsInPunct]
  constructor
  · have hprop : pyStrip (c.text ++ " " ++ pyStrip w.word) = c.text := by
      rw [hw, str_append_empty, pyStrip_append_space, hstrip]
    have h1 : ¬ mc < ((pyStrip (c.text ++ " " ++ pyStrip w.word)).length : Int) := by
      rw [hprop]
      exact hlen
    rw [stepWord_some_absorb h1 hdur hsil (hpunct b), hprop]
  · intro st b'
    obtain ⟨chunk₂, p₂, subs₂⟩ := st
    cases chunk₂ with
    | none => rfl
    | some c₂ =>
      by_cases h1 : mc <
          ((pyStrip (c₂.text ++ " " ++ pyStrip w.word)).length : Int)
      · rw [stepWord_some_len h1]
        rfl
      · by_cases h2 : md < w.«end» - c₂.start
        · rw [stepWord_some_dur h1 h2]
          rfl
        · by_cases h3 : sil ≤ w.start - p₂ ∧ 0 < c₂.text.length
          · rw [stepWord_some_sil h1 h2 h3]
            rfl
          · rw [stepWord_some_absorb h1 h2 h3 (hpunct b')]
            rfl

/-- Concrete instance of claim C10: a whitespace-only word absorbed into the
chunk "Hola" extends the end time only. -/
theorem claim_C10_witness :
    pyStrip ("  " : String) = "" ∧ pyStrip ("Hola" : String) = "Hola"
    ∧ ¬ (60 : Int) < (("Hola" : String).length : Int)
    ∧ ¬ (5 : ℚ) < (2 : ℚ) - 0
    ∧ ¬ ((1 : ℚ) ≤ (1 : ℚ) - 1 ∧ 0 < ("Hola" : String).length)
    ∧ stepWord 60 5 1 ['.', '!', '?'] ⟨some ⟨0, 1, "Hola"⟩, 1, []⟩
        ⟨"  ", 1, 2⟩ false = ⟨some ⟨0, 2, "Hola"⟩, 2, []⟩ :=
  ⟨by decide, by decide, by decide, by norm_num, by norm_num,
    (claim_C10 60 5 1 ['.', '!', '?'] ⟨0, 1, "Hola"⟩ 1 [] ⟨"  ", 1, 2⟩ false
      (by decide) (by decide) (by decide) (by norm_num) (by norm_num)).1⟩

end Subtitleler
